import Mathlib

/-!
Verification of the archive-explorer core: the archive materializer
(`parseArchive` / `sortNodes` in `src/components/tabbed-editor.tsx`, shared
with `src/lib/file-utils`), the content search engine (`performSearch` and
the searchable-file filter in `src/components/search-dialog.tsx`), and the
size formatter (`formatBytes`).

JavaScript strings are modelled as lists of characters (`JSString`); the
JS string methods used by the source (`split`, `trim`, `startsWith`,
`includes`, `slice`, `toLowerCase`) are defined below on that
representation.  Case conversion models `toLowerCase` / the regex `i` flag
on the ASCII range, which is what every claim exercises.
-/

/-- A JavaScript string, modelled as its sequence of characters. -/
abbrev JSString := List Char

/-- `String.prototype.split` with a single-character separator:
`n` separators produce `n + 1` (possibly empty) segments. -/
def jsSplit (sep : Char) : JSString → List JSString
  | [] => [[]]
  | c :: rest =>
    if c = sep then [] :: jsSplit sep rest
    else
      match jsSplit sep rest with
      | [] => [[c]]
      | s :: ss => (c :: s) :: ss

/-- JS whitespace test (ASCII subset: space, tab, newline, carriage return). -/
def isWS (c : Char) : Bool := c = ' ' || c = '\t' || c = '\n' || c = '\r'

/-- `String.prototype.trim`: strip leading and trailing whitespace. -/
def jsTrim (s : JSString) : JSString :=
  ((s.dropWhile isWS).reverse.dropWhile isWS).reverse

/-- Is `p` a leading segment of `s` (`String.prototype.startsWith`)? -/
def startsWithL : JSString → JSString → Bool
  | [], _ => true
  | _ :: _, [] => false
  | a :: as, b :: bs => a = b && startsWithL as bs

/-- `String.prototype.includes`: does `sub` occur inside `s`? -/
def jsIncludes (sub : JSString) : JSString → Bool
  | [] => startsWithL sub []
  | c :: t => startsWithL sub (c :: t) || jsIncludes sub t

/-- `String.prototype.slice(start, stop)` for non-negative arguments. -/
def jsSlice (s : JSString) (start stop : Nat) : JSString :=
  (s.take stop).drop start

/-- ASCII `toLowerCase`, applied per character. -/
def jsToLower (s : JSString) : JSString := s.map Char.toLower

/-! ## Archive materializer (`parseArchive` in `src/lib/file-utils`) -/

/-- One entry reported by the archive-decoding collaborator (JSZip's
`archive.forEach`): its relative path, whether it is a directory marker,
and its uncompressed byte size. -/
structure Entry where
  path : JSString
  dir : Bool
  uncompressedSize : Nat
deriving DecidableEq

/-- The record stored in the `fileTree` map during `parseArchive`'s first
pass.  JS nodes are mutable objects whose `children` arrays hold object
references; the embedding stores the child *paths* in creation order and
resolves them against the final map state, which yields the same tree as
the reference-mutating original. -/
structure PreNode where
  name : JSString
  path : JSString
  isDirectory : Bool
  size? : Option Nat
  childPaths? : Option (List JSString)
deriving DecidableEq

/-- The materialized tree node (`FileNode` in `src/lib/file-utils`):
`children` is a list for directories and absent (`none`) for files. -/
inductive FileNode where
  | mk (name : JSString) (path : JSString) (isDirectory : Bool)
       (size? : Option Nat) (children? : Option (List FileNode))

def FileNode.name : FileNode → JSString
  | .mk n _ _ _ _ => n

def FileNode.path : FileNode → JSString
  | .mk _ p _ _ _ => p

def FileNode.isDirectory : FileNode → Bool
  | .mk _ _ d _ _ => d

def FileNode.size? : FileNode → Option Nat
  | .mk _ _ _ s _ => s

def FileNode.children? : FileNode → Option (List FileNode)
  | .mk _ _ _ _ c => c

/-- `fileTree.has(p)` / `fileTree.get(p)`: the map keyed by path, in
insertion order. -/
def findNode (m : List PreNode) (p : JSString) : Option PreNode :=
  m.find? fun n => decide (n.path = p)

def hasPath (m : List PreNode) (p : JSString) : Bool :=
  (findNode m p).isSome

/-- The effect of `parent.children.push(node)` on one map record: append
the child path when the record is the parent, has a `children` list, and
does not already list the child (the source's
`!parent.children.some(child => child.path === currentPath)` check). -/
def pushOne (parentPath childPath : JSString) (n : PreNode) : PreNode :=
  if n.path = parentPath then
    match n.childPaths? with
    | some cs => if childPath ∈ cs then n else { n with childPaths? := some (cs ++ [childPath]) }
    | none => n
  else n

/-- `parent.children.push(node)`, as a transformation of the map. -/
def pushChild (m : List PreNode) (parentPath childPath : JSString) : List PreNode :=
  m.map (pushOne parentPath childPath)

/-- The body of `parseArchive`'s per-entry `for` loop over the path
segments: `i` is the loop index, `total` the segment count, `currentPath`
the running prefix and `m` the `fileTree` map. -/
def insertLoop (dir : Bool) (sz : Nat) (total : Nat) :
    List JSString → Nat → JSString → List PreNode → List PreNode
  | [], _, _, m => m
  | part :: rest, i, currentPath, m =>
    if part = [] then insertLoop dir sz total rest (i + 1) currentPath m
    else
      let parentPath := currentPath
      let newPath := if currentPath = [] then part else currentPath ++ '/' :: part
      if hasPath m newPath then insertLoop dir sz total rest (i + 1) newPath m
      else
        let isDir := decide (i < total - 1) || dir
        let node : PreNode :=
          ⟨part, newPath, isDir, if isDir then none else some sz,
           if isDir then some [] else none⟩
        let m1 := m ++ [node]
        let m2 :=
          if parentPath ≠ [] ∧ hasPath m1 parentPath then
            pushChild m1 parentPath newPath
          else m1
        insertLoop dir sz total rest (i + 1) newPath m2

/-- Processing of one archive entry (one iteration of `archive.forEach`). -/
def processEntry (e : Entry) (m : List PreNode) : List PreNode :=
  let parts := jsSplit '/' e.path
  insertLoop e.dir e.uncompressedSize parts.length parts 0 [] m

/-- The whole first pass of `parseArchive`: fold the entries over the
initially empty `fileTree` map. -/
def firstPass (entries : List Entry) : List PreNode :=
  entries.foldl (fun m e => processEntry e m) []

/-- Root collection: nodes whose path contains no `/`, in map order. -/
def rootPre (m : List PreNode) : List PreNode :=
  m.filter fun n => decide ('/' ∉ n.path)

/-- Materialize the `FileNode` for one map record, resolving the recorded
child paths against the final map state.  `fuel` bounds the recursion
depth; `parseArchive` passes `m.length + 1`, which exceeds the depth of
any chain of distinct map records, so the bound is never hit. -/
def buildNode (m : List PreNode) : Nat → PreNode → FileNode
  | 0, n => .mk n.name n.path n.isDirectory n.size? (n.childPaths?.map fun _ => [])
  | fuel + 1, n =>
    .mk n.name n.path n.isDirectory n.size?
      (n.childPaths?.map fun cs => (cs.filterMap (findNode m)).map fun ch => buildNode m fuel ch)

/-! `sortNodes`: directories before files, ties by name comparison.
`localeCompare` is modelled as code-point comparison.  JS `Array.sort`
is a stable sort, and a stable sort w.r.t. a total preorder has a unique
result, so it is modelled by `List.insertionSort` (which is stable). -/

/-- Code-point comparison of two strings (the model of `localeCompare`). -/
def lexCmp : JSString → JSString → Ordering
  | [], [] => .eq
  | [], _ :: _ => .lt
  | _ :: _, [] => .gt
  | a :: as, b :: bs =>
    if a.toNat < b.toNat then .lt else if b.toNat < a.toNat then .gt else lexCmp as bs

def localeCompare (a b : JSString) : Int :=
  match lexCmp a b with
  | .lt => -1
  | .eq => 0
  | .gt => 1

/-- The comparator passed to `.sort`: directories first, then names. -/
def cmpNode (a b : FileNode) : Int :=
  if a.isDirectory && !b.isDirectory then -1
  else if !a.isDirectory && b.isDirectory then 1
  else localeCompare a.name b.name

/-- The ordering induced by the comparator (`cmpNode a b ≤ 0`). -/
def nodeR (a b : FileNode) : Prop := cmpNode a b ≤ 0

instance : DecidableRel nodeR := fun a b => inferInstanceAs (Decidable (cmpNode a b ≤ 0))

/- Recursive copy of `sortNodes`: sort each `children` list at every
depth.  The comparator never inspects `children`, so sorting commutes
with the recursive copy; the embedding recurses first and sorts after. -/
mutual
def sortNode : FileNode → FileNode
  | .mk nm p d sz none => .mk nm p d sz none
  | .mk nm p d sz (some cs) => .mk nm p d sz (some (List.insertionSort nodeR (sortEach cs)))
def sortEach : List FileNode → List FileNode
  | [] => []
  | n :: t => sortNode n :: sortEach t
end

def sortNodes (l : List FileNode) : List FileNode :=
  List.insertionSort nodeR (sortEach l)

/-- `parseArchive`, as a function of the entry list supplied by the
archive-decoding collaborator. -/
def parseArchive (entries : List Entry) : List FileNode :=
  let m := firstPass entries
  sortNodes ((rootPre m).map (buildNode m (m.length + 1)))

/-! ## Observations of the materialized tree used by the claims -/

/- All paths occurring in a tree / forest, in pre-order. -/
mutual
def nodePaths : FileNode → List JSString
  | .mk _ p _ _ none => [p]
  | .mk _ p _ _ (some cs) => p :: forestPaths cs
def forestPaths : List FileNode → List JSString
  | [] => []
  | n :: t => nodePaths n ++ forestPaths t
end

/- Structural well-formedness (claim C1): a node carries a `children`
list exactly when it is a directory, and each child's path is the
parent's path, a slash, and the child's name. -/
mutual
def nodeWF : FileNode → Prop
  | .mk _ _ d _ none => d = false
  | .mk _ p d _ (some cs) => d = true ∧ childrenWF p cs
def childrenWF : JSString → List FileNode → Prop
  | _, [] => True
  | p, n :: t => (n.path = p ++ '/' :: n.name ∧ nodeWF n) ∧ childrenWF p t
end

def forestWF : List FileNode → Prop
  | [] => True
  | n :: t => nodeWF n ∧ forestWF t

/- Recursive sortedness (claim C3): every `children` list, at every
depth, is pairwise ordered by the comparator. -/
mutual
def nodeSorted : FileNode → Prop
  | .mk _ _ _ _ none => True
  | .mk _ _ _ _ (some cs) => List.Pairwise nodeR cs ∧ forestSorted cs
def forestSorted : List FileNode → Prop
  | [] => True
  | n :: t => nodeSorted n ∧ forestSorted t
end

def treeSorted (l : List FileNode) : Prop := List.Pairwise nodeR l ∧ forestSorted l

/-! ## Content search engine (`src/components/search-dialog.tsx`) -/

/-- `getFileExtension`: `filename.split(".").pop()?.toLowerCase() || ""`. -/
def getFileExtension (filename : JSString) : JSString :=
  jsToLower ((jsSplit '.' filename).getLastD [])

/-- The fixed allow-list of text/code/config extensions. -/
def textExtensions : List JSString :=
  ["js", "jsx", "ts", "tsx", "java", "kt", "py", "rb", "php", "cpp", "c",
   "cs", "go", "rs", "html", "htm", "xml", "css", "scss", "sass", "less",
   "json", "yaml", "yml", "toml", "md", "txt", "log", "ini", "cfg", "conf",
   "properties", "gradle", "sql", "sh", "bash", "dockerfile", "makefile",
   "gitignore", "readme"].map String.toList

/-- The searchable-file test applied to a file's name. -/
def isSearchableName (name : JSString) : Bool :=
  textExtensions.contains (getFileExtension name)
    || jsIncludes ("readme".toList) (jsToLower name)
    || jsIncludes ("license".toList) (jsToLower name)
    || jsIncludes ("changelog".toList) (jsToLower name)

/- `collectTextFiles`: pre-order filter of the tree down to searchable
file nodes (directories contribute their subtree, files their own node
when the name test passes). -/
mutual
def collectFromNode : FileNode → List FileNode
  | .mk _ _ true _ (some cs) => collectTextFiles cs
  | .mk _ _ true _ none => []
  | .mk nm p false sz c => if isSearchableName nm then [.mk nm p false sz c] else []
def collectTextFiles : List FileNode → List FileNode
  | [] => []
  | n :: rest => collectFromNode n ++ collectTextFiles rest
end

/-- The characters escaped by
`searchQuery.replace(/[.*+?^$\x7b\x7d()|[\]\\]/g, "\\$&")`. -/
def regexMeta : List Char :=
  ['.', '*', '+', '?', '^', '$', '\x7b', '\x7d', '(', ')', '|', '[', ']', '\\']

/-- The escaping step: prepend a backslash to every regex metacharacter. -/
def escapeRegExp : JSString → JSString
  | [] => []
  | c :: r => if c ∈ regexMeta then '\\' :: c :: escapeRegExp r else c :: escapeRegExp r

/-- Decode a regex pattern that is a pure literal: a backslash escapes the
next character; an unescaped metacharacter means the pattern is not a
literal (`none`).  `litPattern pat = some s` says the regex `pat` matches
exactly the fixed string `s`. -/
def litPattern : JSString → Option JSString
  | [] => some []
  | c :: r =>
    if c = '\\' then
      match r with
      | [] => none
      | d :: r2 => (litPattern r2).map (d :: ·)
    else if c ∈ regexMeta then none
    else (litPattern r).map (c :: ·)

/-- Does the needle occur at offset `i` of the line, case-insensitively
(the regex `i` flag)? -/
def ciMatchAt (needle line : JSString) (i : Nat) : Bool :=
  jsToLower ((line.drop i).take needle.length) = jsToLower needle
    && i + needle.length ≤ line.length

/-- Leftmost occurrence of the needle at offset ≥ `i`; the auxiliary
recursion is over the number of offsets left to try. -/
def findFromAux (needle line : JSString) : Nat → Nat → Option Nat
  | 0, _ => none
  | fuel + 1, i => if ciMatchAt needle line i then some i else findFromAux needle line fuel (i + 1)

def findFrom (needle line : JSString) (start : Nat) : Option Nat :=
  findFromAux needle line (line.length + 1 - start) start

/-- The `while ((match = regex.exec(line)) !== null)` loop: `lastIndex`
advances to the end of each match.  `fuel` bounds the iteration count;
for a non-empty needle each match consumes at least one character, so
`line.length + 1` iterations always suffice (this is claim C10). -/
def execLoop (needle line : JSString) : Nat → Nat → List (Nat × Nat)
  | 0, _ => []
  | fuel + 1, lastIndex =>
    match findFrom needle line lastIndex with
    | none => []
    | some i => (i, i + needle.length) :: execLoop needle line fuel (i + needle.length)

/-- One recorded match (`SearchResult["matches"]` element): 1-based line
number, the trimmed line content, and offsets into the untrimmed line. -/
structure SMatch where
  line : Nat
  content : JSString
  matchStart : Nat
  matchEnd : Nat
deriving DecidableEq

/-- `lines.forEach` of the scan: `idx` is the 0-based line index. -/
def searchLines (needle : JSString) : Nat → List JSString → List SMatch
  | _, [] => []
  | idx, ln :: rest =>
    ((execLoop needle ln (ln.length + 1) 0).map fun se =>
      ⟨idx + 1, jsTrim ln, se.1, se.2⟩) ++ searchLines needle (idx + 1) rest

/-- The per-file scan of `performSearch`: split the content into lines and
collect the matches of the escaped query. -/
def searchFile (searchQuery content : JSString) : List SMatch :=
  let needle := (litPattern (escapeRegExp searchQuery)).getD []
  searchLines needle 0 (jsSplit '\n' content)

/-- One aggregated per-file result (`SearchResult`); `matches'` models
the source's `matches` field (`matches` is reserved in Lean). -/
structure SResult where
  file : FileNode
  matches' : List SMatch

/-- The observable outcome of `performSearch`: the results list, the two
aggregate counters (`searchStats`), and the trace of content-read
attempts (which files `getFileContent` was called on). -/
structure SearchOutcome where
  results : List SResult
  statFiles : Nat
  statMatches : Nat
  reads : List JSString

/-- The binary-content sentinel test:
`content.startsWith("[Binary file") || content.startsWith("[Unable to read")`. -/
def isSentinel (content : JSString) : Bool :=
  startsWithL ("[Binary file".toList) content
    || startsWithL ("[Unable to read".toList) content

/-- The body of the `for (const file of textFiles)` loop.  The reader
models `getFileContent`: `none` is a thrown error, which the inner
`try/catch` swallows (the file is skipped). -/
def searchStep (reader : JSString → Option JSString) (searchQuery : JSString)
    (acc : List SResult × Nat × List JSString) (file : FileNode) :
    List SResult × Nat × List JSString :=
  let (res, tot, reads) := acc
  match reader file.path with
  | none => (res, tot, reads ++ [file.path])
  | some content =>
    if isSentinel content then (res, tot, reads ++ [file.path])
    else
      let ms := searchFile searchQuery content
      (if ms = [] then res else res ++ [⟨file, ms⟩], tot + ms.length, reads ++ [file.path])

/-- `performSearch`: the empty-after-trim query (or an empty searchable
set) yields no results, no counters and no reads; otherwise fold the
per-file step over the searchable files in order. -/
def performSearch (textFiles : List FileNode) (reader : JSString → Option JSString)
    (searchQuery : JSString) : SearchOutcome :=
  if jsTrim searchQuery = [] ∨ textFiles.length = 0 then ⟨[], 0, 0, []⟩
  else
    let (res, tot, reads) := textFiles.foldl (searchStep reader searchQuery) ([], 0, [])
    ⟨res, res.length, tot, reads⟩

/-! ## Size formatter (`formatBytes` in `src/lib/file-utils`) -/

/-- `Math.floor(Math.log(bytes) / Math.log(1024))`, computed exactly
(the float logarithm quotient is modelled by the exact base-1024
logarithm).  The auxiliary argument is structural fuel. -/
def log1024Aux : Nat → Nat → Nat
  | 0, _ => 0
  | fuel + 1, b => if b < 1024 then 0 else 1 + log1024Aux fuel (b / 1024)

def log1024 (b : Nat) : Nat := log1024Aux b b

/-- `parseFloat(x.toFixed(2))` printed back by JS number-to-string, for
the exact value `n / 100`: drop trailing fractional zeros. -/
def formatHundredths (n : Nat) : String :=
  let intPart := n / 100
  let frac := n % 100
  if frac = 0 then toString intPart
  else if frac % 10 = 0 then toString intPart ++ "." ++ toString (frac / 10)
  else if frac < 10 then toString intPart ++ ".0" ++ toString frac
  else toString intPart ++ "." ++ toString frac

/-- `formatBytes`: base-1024 units with two decimal places, trailing
zeros dropped by the `parseFloat` round-trip.  `toFixed(2)` rounds to the
nearest hundredth, half away from zero, modelled exactly. -/
def formatBytes (bytes : Nat) : String :=
  if bytes = 0 then "0 Bytes"
  else
    let sizes := ["Bytes", "KB", "MB", "GB"]
    let i := log1024 bytes
    let hundredths := (bytes * 200 + 1024 ^ i) / (2 * 1024 ^ i)
    formatHundredths hundredths ++ " " ++ sizes.getD i "undefined"

/-! # Theorems -/

/-- C8: the size formatter uses base-1024 units `Bytes, KB, MB, GB` with
two decimal places; in particular `formatBytes 0 = "0 Bytes"` and
`formatBytes 1536 = "1.5 KB"` (the spec's `humanReadableSize` is the
source's `formatBytes`). -/
theorem formatBytes_spec :
    formatBytes 0 = "0 Bytes" ∧ formatBytes 1536 = "1.5 KB" ∧
    formatBytes 512 = "512 Bytes" ∧ formatBytes 1023 = "1023 Bytes" ∧
    formatBytes 1024 = "1 KB" ∧ formatBytes (1024 ^ 2) = "1 MB" ∧
    formatBytes (1024 ^ 3) = "1 GB" :=
  ⟨rfl, rfl, rfl, rfl, rfl, rfl, rfl⟩

/-- C9: the materializer is a deterministic function of the archive
content: equal entry lists produce trees equal in structure, names,
sizes and order.  (The JS sources of nondeterminism — `Map` iteration
and `Array.sort` — are insertion-ordered and stable respectively, which
the embedding reflects.) -/
theorem parseArchive_deterministic (e₁ e₂ : List Entry) (h : e₁ = e₂) :
    parseArchive e₁ = parseArchive e₂ := by rw [h]

theorem parseArchive_deterministic_witness :
    parseArchive [⟨"a/b.txt".toList, false, 3⟩] = parseArchive [⟨"a/b.txt".toList, false, 3⟩] :=
  parseArchive_deterministic _ _ rfl

/-- C2: on a file with lines `["foo bar", "BAR foo bar"]` and query
`"bar"`, search returns exactly one result with exactly three matches —
line 1 offsets [4,7], line 2 offsets [0,3] and [8,11] — matching
case-insensitively, non-overlapping, left-to-right, per line, with
1-based line numbers; the aggregate counters are 1 file and 3 matches. -/
theorem performSearch_example :
    performSearch
      (collectTextFiles [FileNode.mk "notes.txt".toList "notes.txt".toList false (some 19) none])
      (fun p => if p = "notes.txt".toList then some ("foo bar\nBAR foo bar".toList) else none)
      ("bar".toList) =
    ⟨[⟨FileNode.mk "notes.txt".toList "notes.txt".toList false (some 19) none,
       [⟨1, "foo bar".toList, 4, 7⟩, ⟨2, "BAR foo bar".toList, 0, 3⟩,
        ⟨2, "BAR foo bar".toList, 8, 11⟩]⟩],
     1, 3, ["notes.txt".toList]⟩ := rfl

/-- C7: searching any tree with the empty query yields zero results,
zero aggregate counters, and performs zero content reads. -/
theorem performSearch_empty_query (tree : List FileNode) (reader : JSString → Option JSString) :
    performSearch (collectTextFiles tree) reader [] = ⟨[], 0, 0, []⟩ := by
  unfold performSearch
  rw [if_pos]
  exact Or.inl rfl

/-- Escaping produces a pattern that is a pure literal denoting exactly
the original query (shared helper for the claims about matching). -/
theorem litPattern_escape (q : JSString) : litPattern (escapeRegExp q) = some q := by
  induction q with
  | nil => rfl
  | cons c r ih =>
    by_cases hc : c ∈ regexMeta
    · simp [escapeRegExp, hc, litPattern, ih]
    · have hcb : c ≠ '\\' := by rintro rfl; exact hc (by decide)
      rw [escapeRegExp, if_neg hc, litPattern.eq_def]
      simp [hcb, hc, ih]

/-- C5: the query is matched as a literal substring — escaping
neutralizes every regex metacharacter, so the escaped pattern is a pure
literal that denotes exactly the original query; concretely, query
`"a.b*"` matches a file containing `"a.b*"` verbatim and does not match
a file containing only `"aXbYYY"`. -/
theorem escapeRegExp_literal :
    (∀ q : JSString, litPattern (escapeRegExp q) = some q)
    ∧ searchFile ("a.b*".toList) ("xx a.b* yy".toList) = [⟨1, "xx a.b* yy".toList, 3, 7⟩]
    ∧ searchFile ("a.b*".toList) ("aXbYYY".toList) = [] :=
  ⟨litPattern_escape, rfl, rfl⟩

/-! ### Per-file skipping (claim C4) -/

/-- The results contribution of a single file in the search loop. -/
def stepRes (reader : JSString → Option JSString) (q : JSString) (f : FileNode) : List SResult :=
  match reader f.path with
  | none => []
  | some content =>
    if isSentinel content then []
    else if searchFile q content = [] then [] else [⟨f, searchFile q content⟩]

/-- The match-count contribution of a single file in the search loop. -/
def stepTot (reader : JSString → Option JSString) (q : JSString) (f : FileNode) : Nat :=
  match reader f.path with
  | none => 0
  | some content => if isSentinel content then 0 else (searchFile q content).length

theorem searchStep_eq (reader : JSString → Option JSString) (q : JSString)
    (acc : List SResult × Nat × List JSString) (f : FileNode) :
    searchStep reader q acc f =
      (acc.1 ++ stepRes reader q f, acc.2.1 + stepTot reader q f, acc.2.2 ++ [f.path]) := by
  obtain ⟨res, tot, reads⟩ := acc
  unfold searchStep stepRes stepTot
  cases h : reader f.path with
  | none => simp
  | some content =>
    cases hs : isSentinel content
    · by_cases hm : searchFile q content = [] <;> simp [hs, hm]
    · simp [hs]

theorem foldl_searchStep (reader : JSString → Option JSString) (q : JSString) :
    ∀ (files : List FileNode) (res : List SResult) (tot : Nat) (reads : List JSString),
      files.foldl (searchStep reader q) (res, tot, reads) =
        (res ++ files.flatMap (stepRes reader q), tot + (files.map (stepTot reader q)).sum,
         reads ++ files.map FileNode.path) := by
  intro files
  induction files with
  | nil => simp
  | cons f t ih =>
    intro res tot reads
    simp only [List.foldl_cons, searchStep_eq, ih, List.flatMap_cons, List.map_cons,
      List.sum_cons]
    simp [Nat.add_assoc]

theorem stepRes_skip (reader : JSString → Option JSString) (q : JSString) (f : FileNode)
    (hf : reader f.path = none ∨ ∃ c, reader f.path = some c ∧ isSentinel c = true) :
    stepRes reader q f = [] ∧ stepTot reader q f = 0 := by
  unfold stepRes stepTot
  rcases hf with h | ⟨c, hc, hs⟩
  · simp [h]
  · simp [hc, hs]

/-- C4: a searchable file whose content read fails, or whose content
starts with a binary-sentinel marker, is excluded from the results and
contributes zero matches; the search over the remaining files is
unaffected (a per-file failure never aborts the overall search). -/
theorem performSearch_skips_failing_file (pre post : List FileNode) (f : FileNode)
    (reader : JSString → Option JSString) (q : JSString)
    (hf : reader f.path = none ∨ ∃ c, reader f.path = some c ∧ isSentinel c = true) :
    (performSearch (pre ++ f :: post) reader q).results
        = (performSearch (pre ++ post) reader q).results
    ∧ (performSearch (pre ++ f :: post) reader q).statFiles
        = (performSearch (pre ++ post) reader q).statFiles
    ∧ (performSearch (pre ++ f :: post) reader q).statMatches
        = (performSearch (pre ++ post) reader q).statMatches := by
  obtain ⟨hr, ht⟩ := stepRes_skip reader q f hf
  unfold performSearch
  by_cases hq : jsTrim q = []
  · simp [hq]
  · by_cases hpp : (pre ++ post).length = 0
    · have hpre : pre = [] := by cases pre <;> simp_all
      subst hpre
      have hpost : post = [] := by simpa using hpp
      subst hpost
      simp [hq, foldl_searchStep, searchStep_eq, hr, ht]
    · have h1 : ¬(jsTrim q = [] ∨ (pre ++ f :: post).length = 0) := by
        simp [hq]
      have h2 : ¬(jsTrim q = [] ∨ (pre ++ post).length = 0) := by
        simp only [not_or]
        exact ⟨hq, hpp⟩
      rw [if_neg h1, if_neg h2]
      simp [foldl_searchStep, searchStep_eq, hr, ht, List.flatMap_append, List.sum_append]

theorem performSearch_skips_failing_file_witness :
    (performSearch [FileNode.mk "a.txt".toList "a.txt".toList false (some 1) none]
        (fun _ => none) ("x".toList)).results
      = (performSearch [] (fun _ => none) ("x".toList)).results
    ∧ (performSearch [FileNode.mk "a.txt".toList "a.txt".toList false (some 1) none]
        (fun _ => none) ("x".toList)).statFiles
      = (performSearch [] (fun _ => none) ("x".toList)).statFiles
    ∧ (performSearch [FileNode.mk "a.txt".toList "a.txt".toList false (some 1) none]
        (fun _ => none) ("x".toList)).statMatches
      = (performSearch [] (fun _ => none) ("x".toList)).statMatches :=
  performSearch_skips_failing_file [] []
    (FileNode.mk "a.txt".toList "a.txt".toList false (some 1) none)
    (fun _ => none) ("x".toList) (Or.inl rfl)

/-! ### Termination and offsets of the per-line scan (claims C10, C6) -/

theorem findFromAux_spec (n l : JSString) :
    ∀ (fuel i j : Nat), findFromAux n l fuel i = some j →
      i ≤ j ∧ ciMatchAt n l j = true := by
  intro fuel
  induction fuel with
  | zero => intro i j h; cases h
  | succ f ih =>
    intro i j h
    rw [findFromAux] at h
    by_cases hm : ciMatchAt n l i = true
    · rw [if_pos hm] at h
      cases h
      exact ⟨Nat.le_refl _, hm⟩
    · rw [if_neg hm] at h
      obtain ⟨h1, h2⟩ := ih (i + 1) j h
      exact ⟨by omega, h2⟩

theorem findFrom_some (n l : JSString) (s j : Nat) (h : findFrom n l s = some j) :
    s ≤ j ∧ ciMatchAt n l j = true :=
  findFromAux_spec n l _ s j h

theorem ciMatchAt_bound (n l : JSString) (i : Nat) (h : ciMatchAt n l i = true) :
    i + n.length ≤ l.length := by
  simp only [ciMatchAt, Bool.and_eq_true, decide_eq_true_eq] at h
  exact h.2

theorem findFrom_none_of_ge (n l : JSString) (s : Nat) (hs : l.length + 1 ≤ s) :
    findFrom n l s = none := by
  unfold findFrom
  rw [Nat.sub_eq_zero_of_le hs]
  rfl

theorem execLoop_fuel_eq (n l : JSString) (hn : n ≠ []) :
    ∀ f₁ f₂ s, l.length + 1 ≤ f₁ + s → l.length + 1 ≤ f₂ + s →
      execLoop n l f₁ s = execLoop n l f₂ s := by
  have hlen : 0 < n.length := List.length_pos.mpr hn
  intro f₁
  induction f₁ with
  | zero =>
    intro f₂ s h₁ h₂
    have hs : l.length + 1 ≤ s := by omega
    cases f₂ with
    | zero => rfl
    | succ b =>
      show execLoop n l 0 s = execLoop n l (b + 1) s
      rw [execLoop, execLoop, findFrom_none_of_ge n l s hs]
  | succ a ih =>
    intro f₂ s h₁ h₂
    cases f₂ with
    | zero =>
      have hs : l.length + 1 ≤ s := by omega
      rw [execLoop, execLoop, findFrom_none_of_ge n l s hs]
    | succ b =>
      rw [execLoop, execLoop]
      cases hf : findFrom n l s with
      | none => rfl
      | some j =>
        obtain ⟨hj, hm⟩ := findFrom_some n l s j hf
        have hb := ciMatchAt_bound n l j hm
        show (j, j + n.length) :: execLoop n l a (j + n.length)
            = (j, j + n.length) :: execLoop n l b (j + n.length)
        exact congrArg ((j, j + n.length) :: ·) (ih b (j + n.length) (by omega) (by omega))

theorem execLoop_entries (n l : JSString) :
    ∀ (fuel s : Nat), ∀ pr ∈ execLoop n l fuel s,
      s ≤ pr.1 ∧ ciMatchAt n l pr.1 = true ∧ pr.2 = pr.1 + n.length := by
  intro fuel
  induction fuel with
  | zero => intro s pr h; cases h
  | succ f ih =>
    intro s pr h
    rw [execLoop] at h
    cases hf : findFrom n l s with
    | none => rw [hf] at h; cases h
    | some j =>
      rw [hf] at h
      obtain ⟨hj, hm⟩ := findFrom_some n l s j hf
      rcases List.mem_cons.mp h with rfl | h2
      · exact ⟨hj, hm, rfl⟩
      · obtain ⟨h3, h4, h5⟩ := ih (j + n.length) pr h2
        exact ⟨by omega, h4, h5⟩

theorem execLoop_chain (n l : JSString) (hn : n ≠ []) :
    ∀ (fuel s : Nat),
      List.Chain' (fun a b : Nat × Nat => a.1 < b.1) (execLoop n l fuel s) := by
  have hlen : 0 < n.length := List.length_pos.mpr hn
  intro fuel
  induction fuel with
  | zero => intro s; rw [execLoop]; exact List.chain'_nil
  | succ f ih =>
    intro s
    rw [execLoop]
    cases hf : findFrom n l s with
    | none => exact List.chain'_nil
    | some j =>
      refine List.chain'_cons'.mpr ⟨?_, ih _⟩
      intro y hy
      have hmem : y ∈ execLoop n l f (j + n.length) := List.mem_of_mem_head? hy
      have := (execLoop_entries n l f _ y hmem).1
      show j < y.1
      omega

/-- C10: for every query that is non-empty after trimming, the per-line
match-collection loop terminates within `line.length + 1` iterations
(extra fuel does not change the result), because the escaped pattern
denotes the non-empty query, every match spans exactly the query's
length (at least one character), and the scan position strictly
increases between matches. -/
theorem execLoop_terminates (q line : JSString) (extra : Nat) (hq : jsTrim q ≠ []) :
    execLoop ((litPattern (escapeRegExp q)).getD []) line (line.length + 1 + extra) 0
      = execLoop ((litPattern (escapeRegExp q)).getD []) line (line.length + 1) 0
    ∧ 0 < ((litPattern (escapeRegExp q)).getD []).length
    ∧ List.Chain' (fun a b : Nat × Nat => a.1 < b.1)
        (execLoop ((litPattern (escapeRegExp q)).getD []) line (line.length + 1) 0)
    ∧ ∀ pr ∈ execLoop ((litPattern (escapeRegExp q)).getD []) line (line.length + 1) 0,
        pr.2 = pr.1 + ((litPattern (escapeRegExp q)).getD []).length := by
  have hql : (litPattern (escapeRegExp q)).getD [] = q := by
    rw [litPattern_escape q]; rfl
  rw [hql]
  have hq0 : q ≠ [] := fun h => hq (by rw [h]; rfl)
  exact ⟨execLoop_fuel_eq q line hq0 _ _ 0 (by omega) (by omega),
    List.length_pos.mpr hq0, execLoop_chain q line hq0 _ 0,
    fun pr h => (execLoop_entries q line _ 0 pr h).2.2⟩

theorem execLoop_terminates_witness :
    (execLoop ((litPattern (escapeRegExp ("a".toList))).getD []) ("aa".toList)
        (("aa".toList).length + 1 + 5) 0
      = execLoop ((litPattern (escapeRegExp ("a".toList))).getD []) ("aa".toList)
        (("aa".toList).length + 1) 0)
    ∧ 0 < ((litPattern (escapeRegExp ("a".toList))).getD []).length
    ∧ List.Chain' (fun a b : Nat × Nat => a.1 < b.1)
        (execLoop ((litPattern (escapeRegExp ("a".toList))).getD []) ("aa".toList)
          (("aa".toList).length + 1) 0)
    ∧ ∀ pr ∈ execLoop ((litPattern (escapeRegExp ("a".toList))).getD []) ("aa".toList)
          (("aa".toList).length + 1) 0,
        pr.2 = pr.1 + ((litPattern (escapeRegExp ("a".toList))).getD []).length :=
  execLoop_terminates ("a".toList) ("aa".toList) 5 (by decide)

theorem jsSlice_drop_take (l : List Char) (s L : Nat) :
    jsSlice l s (s + L) = (l.drop s).take L := by
  unfold jsSlice
  rw [List.drop_take]
  congr 1
  omega

theorem searchLines_match_shape (needle : JSString) :
    ∀ (lines : List JSString) (idx : Nat) (mt : SMatch),
      mt ∈ searchLines needle idx lines →
      ∃ ln ∈ lines, mt.content = jsTrim ln ∧
        ciMatchAt needle ln mt.matchStart = true ∧
        mt.matchEnd = mt.matchStart + needle.length := by
  intro lines
  induction lines with
  | nil => intro idx mt h; cases h
  | cons ln rest ih =>
    intro idx mt h
    rw [searchLines] at h
    rcases List.mem_append.mp h with h | h
    · rcases List.mem_map.mp h with ⟨pr, hpr, rfl⟩
      obtain ⟨_, hci, hend⟩ := execLoop_entries needle ln _ 0 pr hpr
      exact ⟨ln, List.mem_cons_self _ _, rfl, hci, hend⟩
    · obtain ⟨ln', hln', hrest⟩ := ih (idx + 1) mt h
      exact ⟨ln', List.mem_cons_of_mem _ hln', hrest⟩

/-- C6 counterexample: the claim says that on a line with leading
whitespace the stored offsets never delimit the query inside the stored
trimmed text.  On the line `" aaa"` with query `"aa"` the single
recorded match is stored with content `"aaa"` and offsets `(1,3)` — and
`"aaa".slice(1,3) = "aa"` is exactly the query, so on this input the
stored offsets *do* delimit the query within the trimmed text. -/
theorem trimmed_offsets_counterexample :
    searchFile ("aa".toList) (" aaa".toList) = [⟨1, "aaa".toList, 1, 3⟩]
    ∧ isWS ' ' = true
    ∧ jsSlice ("aaa".toList) 1 3 = "aa".toList :=
  ⟨rfl, rfl, rfl⟩

/-- C6 (amended): for every match recorded by search, the stored line
text is the matched line trimmed of leading and trailing whitespace,
while `matchStart`/`matchEnd` are character offsets into the original
untrimmed line (they delimit the query there, case-insensitively); on a
line with leading whitespace the two conventions disagree, so the
offsets need not delimit — though they can coincidentally delimit — the
query within the stored trimmed text.  Concretely, for line `"  ab"`
and query `"ab"` the stored offsets `(2,4)` select the empty string in
the trimmed text `"ab"`. -/
theorem searchFile_offsets :
    (∀ (q content : JSString) (mt : SMatch), mt ∈ searchFile q content →
      ∃ ln ∈ jsSplit '\n' content,
        mt.content = jsTrim ln ∧
        mt.matchEnd = mt.matchStart + q.length ∧
        jsToLower (jsSlice ln mt.matchStart mt.matchEnd) = jsToLower q)
    ∧ searchFile ("ab".toList) ("  ab".toList) = [⟨1, "ab".toList, 2, 4⟩]
    ∧ jsSlice ("ab".toList) 2 4 = [] := by
  refine ⟨?_, rfl, rfl⟩
  intro q content mt h
  unfold searchFile at h
  rw [litPattern_escape q] at h
  obtain ⟨ln, hln, hcont, hci, hend⟩ := searchLines_match_shape q _ 0 mt h
  refine ⟨ln, hln, hcont, hend, ?_⟩
  simp only [ciMatchAt, Bool.and_eq_true, decide_eq_true_eq] at hci
  rw [hend, jsSlice_drop_take]
  exact hci.1

theorem searchFile_offsets_witness :
    ∃ ln ∈ jsSplit '\n' ("ab".toList),
      (⟨1, "ab".toList, 1, 2⟩ : SMatch).content = jsTrim ln ∧
      (⟨1, "ab".toList, 1, 2⟩ : SMatch).matchEnd
        = (⟨1, "ab".toList, 1, 2⟩ : SMatch).matchStart + ("b".toList).length ∧
      jsToLower (jsSlice ln (⟨1, "ab".toList, 1, 2⟩ : SMatch).matchStart
          (⟨1, "ab".toList, 1, 2⟩ : SMatch).matchEnd)
        = jsToLower ("b".toList) :=
  searchFile_offsets.1 ("b".toList) ("ab".toList) ⟨1, "ab".toList, 1, 2⟩ (by decide)

/-! ### Sortedness of the materialized tree (claim C3) -/

theorem lexCmp_swap : ∀ a b : JSString, lexCmp a b = (lexCmp b a).swap := by
  intro a
  induction a with
  | nil => intro b; cases b <;> rfl
  | cons x as ih =>
    intro b
    cases b with
    | nil => rfl
    | cons y bs =>
      rw [lexCmp, lexCmp]
      by_cases h1 : x.toNat < y.toNat
      · rw [if_pos h1, if_neg (by omega), if_pos h1]; rfl
      · by_cases h2 : y.toNat < x.toNat
        · rw [if_neg h1, if_pos h2, if_pos h2]; rfl
        · rw [if_neg h1, if_neg h2, if_neg h2, if_neg h1]; exact ih bs

theorem lexCmp_trans : ∀ a b c : JSString,
    lexCmp a b ≠ .gt → lexCmp b c ≠ .gt → lexCmp a c ≠ .gt := by
  intro a
  induction a with
  | nil =>
    intro b c _ _
    cases c <;> simp [lexCmp]
  | cons x as ih =>
    intro b c h1 h2
    cases b with
    | nil => rw [lexCmp] at h1; exact absurd rfl h1
    | cons y bs =>
      cases c with
      | nil => rw [lexCmp] at h2; exact absurd rfl h2
      | cons z cs =>
        rw [lexCmp] at h1 h2 ⊢
        split_ifs at h1 h2 ⊢ <;>
          first
            | exact absurd rfl h1
            | exact absurd rfl h2
            | exact ih bs cs h1 h2
            | decide
            | omega

theorem localeCompare_nonpos (a b : JSString) :
    localeCompare a b ≤ 0 ↔ lexCmp a b ≠ .gt := by
  unfold localeCompare
  cases h : lexCmp a b <;> simp

theorem localeCompare_total (a b : JSString) :
    localeCompare a b ≤ 0 ∨ localeCompare b a ≤ 0 := by
  rw [localeCompare_nonpos, localeCompare_nonpos]
  by_cases h : lexCmp a b = .gt
  · right
    rw [lexCmp_swap] at h
    intro hba
    rw [hba] at h
    cases h
  · left; exact h

instance : IsTotal FileNode nodeR where
  total a b := by
    unfold nodeR cmpNode
    cases ha : a.isDirectory <;> cases hb : b.isDirectory <;>
      first
        | (left; show (-1 : Int) ≤ 0; decide)
        | (right; show (-1 : Int) ≤ 0; decide)
        | exact localeCompare_total a.name b.name

instance : IsTrans FileNode nodeR where
  trans a b c hab hbc := by
    unfold nodeR cmpNode at hab hbc ⊢
    cases ha : a.isDirectory <;> cases hb : b.isDirectory <;> cases hc : c.isDirectory <;>
      simp only [ha, hb] at hab <;> simp only [hb, hc] at hbc <;>
      first
        | exact absurd (show (1 : Int) ≤ 0 from hab) (by decide)
        | exact absurd (show (1 : Int) ≤ 0 from hbc) (by decide)
        | (show (-1 : Int) ≤ 0; decide)
        | exact (localeCompare_nonpos _ _).mpr
            (lexCmp_trans _ _ _ ((localeCompare_nonpos _ _).mp hab)
              ((localeCompare_nonpos _ _).mp hbc))

theorem sortEach_eq_map : ∀ l : List FileNode, sortEach l = l.map sortNode := by
  intro l
  induction l with
  | nil => rfl
  | cons n t ih => rw [sortEach, ih]; rfl

theorem forestSorted_iff : ∀ l : List FileNode, forestSorted l ↔ ∀ x ∈ l, nodeSorted x := by
  intro l
  induction l with
  | nil => simp [forestSorted]
  | cons n t ih => rw [forestSorted, ih]; simp

theorem nodeSorted_sortNode : ∀ n : FileNode, nodeSorted (sortNode n) := by
  have key : ∀ (k : Nat) (n : FileNode), sizeOf n ≤ k → nodeSorted (sortNode n) := by
    intro k
    induction k with
    | zero =>
      intro n h
      cases n with
      | mk nm p d sz c => simp [FileNode.mk.sizeOf_spec] at h
    | succ k ih =>
      intro n hn
      cases n with
      | mk nm p d sz c =>
        cases c with
        | none => rw [sortNode]; trivial
        | some cs =>
          rw [sortNode]
          refine ⟨List.sorted_insertionSort nodeR _, ?_⟩
          rw [forestSorted_iff]
          intro x hx
          have hx' : x ∈ sortEach cs := ((List.perm_insertionSort nodeR _).mem_iff).mp hx
          rw [sortEach_eq_map] at hx'
          rcases List.mem_map.mp hx' with ⟨y, hy, rfl⟩
          apply ih
          have h1 : sizeOf y < sizeOf cs := List.sizeOf_lt_of_mem hy
          have h2 : sizeOf (FileNode.mk nm p d sz (some cs)) ≤ k + 1 := hn
          simp [FileNode.mk.sizeOf_spec] at h2
          omega
  intro n
  exact key (sizeOf n) n (Nat.le_refl _)

theorem treeSorted_sortNodes (l : List FileNode) : treeSorted (sortNodes l) := by
  refine ⟨List.sorted_insertionSort nodeR _, ?_⟩
  rw [forestSorted_iff]
  intro x hx
  have hx' : x ∈ sortEach l := ((List.perm_insertionSort nodeR _).mem_iff).mp hx
  rw [sortEach_eq_map] at hx'
  rcases List.mem_map.mp hx' with ⟨y, _, rfl⟩
  exact nodeSorted_sortNode y

/-- C3: in the materialized tree every `children` list and the root list
are ordered by the comparator — directories before files, ties by name
comparison — at every depth; concretely, entries
`["a/b.txt", "a/c/d.txt"]` materialize to the single root `"a"` whose
children are the directory `"c"` followed by the file `"b.txt"`. -/
theorem parseArchive_sorted :
    (∀ entries : List Entry, treeSorted (parseArchive entries))
    ∧ parseArchive [⟨"a/b.txt".toList, false, 3⟩, ⟨"a/c/d.txt".toList, false, 5⟩] =
      [FileNode.mk "a".toList "a".toList true none (some
        [FileNode.mk "c".toList "a/c".toList true none (some
          [FileNode.mk "d.txt".toList "a/c/d.txt".toList false (some 5) none]),
         FileNode.mk "b.txt".toList "a/b.txt".toList false (some 3) none])] :=
  ⟨fun _ => treeSorted_sortNodes _, rfl⟩

/-! ### Tree invariants of the materializer (claim C1) -/

theorem jsSplit_no_sep (sep : Char) : ∀ s : JSString, ∀ p ∈ jsSplit sep s, sep ∉ p := by
  intro s
  induction s with
  | nil =>
    intro p hp
    rw [jsSplit] at hp
    rcases List.mem_cons.mp hp with rfl | hp2
    · simp
    · cases hp2
  | cons c rest ih =>
    intro p hp
    rw [jsSplit] at hp
    by_cases hc : c = sep
    · rw [if_pos hc] at hp
      rcases List.mem_cons.mp hp with rfl | hp2
      · simp
      · exact ih p hp2
    · rw [if_neg hc] at hp
      cases hsp : jsSplit sep rest with
      | nil =>
        rw [hsp] at hp
        rcases List.mem_cons.mp hp with rfl | hp2
        · intro hm
          rcases List.mem_cons.mp hm with h | h
          · exact hc h.symm
          · cases h
        · cases hp2
      | cons s0 ss =>
        rw [hsp] at hp
        rcases List.mem_cons.mp hp with rfl | hp2
        · intro hm
          rcases List.mem_cons.mp hm with h | h
          · exact hc h.symm
          · exact ih s0 (by rw [hsp]; exact List.mem_cons_self _ _) h
        · exact ih p (by rw [hsp]; exact List.mem_cons_of_mem _ hp2)

/-- Splitting a slash-joined path at its first slash is unambiguous when
the first components are slash-free. -/
theorem slash_split_inj : ∀ (p₁ p₂ y₁ y₂ : JSString), '/' ∉ p₁ → '/' ∉ p₂ →
    p₁ ++ '/' :: y₁ = p₂ ++ '/' :: y₂ → p₁ = p₂ ∧ y₁ = y₂ := by
  intro p₁
  induction p₁ with
  | nil =>
    intro p₂ y₁ y₂ _ h2 heq
    cases p₂ with
    | nil => simpa using heq
    | cons c q =>
      simp only [List.nil_append, List.cons_append, List.cons.injEq] at heq
      exact absurd (by rw [heq.1]; exact List.mem_cons_self _ _) h2
  | cons a as ih =>
    intro p₂ y₁ y₂ h1 h2 heq
    cases p₂ with
    | nil =>
      simp only [List.nil_append, List.cons_append, List.cons.injEq] at heq
      exact absurd (by rw [← heq.1]; exact List.mem_cons_self _ _) h1
    | cons b q =>
      simp only [List.cons_append, List.cons.injEq] at heq
      obtain ⟨hab, heq2⟩ := heq
      have h1' : '/' ∉ as := fun h => h1 (List.mem_cons_of_mem _ h)
      have h2' : '/' ∉ q := fun h => h2 (List.mem_cons_of_mem _ h)
      obtain ⟨hpq, hy⟩ := ih q y₁ y₂ h1' h2' heq2
      exact ⟨by rw [hab, hpq], hy⟩

/-- The recorded child paths of a map record (empty for files). -/
def childList (n : PreNode) : List JSString := n.childPaths?.getD []

/-- The invariant of the `fileTree` map maintained by the first pass:
paths are unique and non-empty, a record has a `children` list exactly
when it is a directory, names are path segments (slash-free), each
recorded child path resolves to a record whose path is the parent's
path, a slash, and the child's name, and no path is recorded as a child
twice (across all records). -/
structure MapInv (m : List PreNode) : Prop where
  nodup : (m.map PreNode.path).Nodup
  nonempty : ∀ n ∈ m, n.path ≠ []
  childDir : ∀ n ∈ m, n.childPaths?.isSome = n.isDirectory
  names : ∀ n ∈ m, '/' ∉ n.name
  link : ∀ n ∈ m, ∀ c ∈ childList n, ∃ ch ∈ m, ch.path = c ∧ c = n.path ++ '/' :: ch.name
  childNodup : (m.flatMap childList).Nodup

theorem mapInv_nil : MapInv [] := by
  constructor <;> simp

theorem findNode_eq_none (m : List PreNode) (p : JSString) :
    findNode m p = none ↔ ∀ n ∈ m, n.path ≠ p := by
  unfold findNode
  rw [List.find?_eq_none]
  simp

theorem findNode_mem (m : List PreNode) (p : JSString) (n : PreNode)
    (h : findNode m p = some n) : n ∈ m ∧ n.path = p := by
  unfold findNode at h
  exact ⟨List.mem_of_find?_eq_some h, by simpa using List.find?_some h⟩

theorem hasPath_false (m : List PreNode) (p : JSString) (h : hasPath m p = false) :
    ∀ n ∈ m, n.path ≠ p := by
  unfold hasPath at h
  cases hf : findNode m p with
  | none => exact (findNode_eq_none m p).mp hf
  | some x => rw [hf] at h; cases h

theorem findNode_of_mem (m : List PreNode) (hnd : (m.map PreNode.path).Nodup)
    (n : PreNode) (hn : n ∈ m) : findNode m n.path = some n := by
  induction m with
  | nil => cases hn
  | cons x t ih =>
    rcases List.mem_cons.mp hn with rfl | hmem
    · unfold findNode
      rw [List.find?_cons_of_pos]
      simp
    · have hx : x.path ≠ n.path := by
        intro hx
        rw [List.map_cons, List.nodup_cons] at hnd
        exact hnd.1 (hx ▸ List.mem_map_of_mem PreNode.path hmem)
      unfold findNode at *
      rw [List.find?_cons_of_neg]
      · exact ih (by rw [List.map_cons, List.nodup_cons] at hnd; exact hnd.2) hmem
      · simpa using hx

theorem pushOne_path (pp c : JSString) (n : PreNode) : (pushOne pp c n).path = n.path := by
  unfold pushOne
  by_cases h : n.path = pp
  · cases hcp : n.childPaths? with
    | none => simp [h, hcp]
    | some cs => by_cases hc : c ∈ cs <;> simp [h, hcp, hc]
  · simp [h]

theorem pushOne_name (pp c : JSString) (n : PreNode) : (pushOne pp c n).name = n.name := by
  unfold pushOne
  by_cases h : n.path = pp
  · cases hcp : n.childPaths? with
    | none => simp [h, hcp]
    | some cs => by_cases hc : c ∈ cs <;> simp [h, hcp, hc]
  · simp [h]

theorem pushOne_isDirectory (pp c : JSString) (n : PreNode) :
    (pushOne pp c n).isDirectory = n.isDirectory := by
  unfold pushOne
  by_cases h : n.path = pp
  · cases hcp : n.childPaths? with
    | none => simp [h, hcp]
    | some cs => by_cases hc : c ∈ cs <;> simp [h, hcp, hc]
  · simp [h]

theorem pushOne_isSome (pp c : JSString) (n : PreNode) :
    (pushOne pp c n).childPaths?.isSome = n.childPaths?.isSome := by
  unfold pushOne
  by_cases h : n.path = pp
  · cases hcp : n.childPaths? with
    | none => simp [h, hcp]
    | some cs => by_cases hc : c ∈ cs <;> simp [h, hcp, hc]
  · simp [h]

theorem pushOne_childList (pp c : JSString) (n : PreNode) :
    childList (pushOne pp c n) = childList n
    ∨ (n.path = pp ∧ childList (pushOne pp c n) = childList n ++ [c]) := by
  unfold pushOne
  by_cases h : n.path = pp
  · cases hcp : n.childPaths? with
    | none => left; simp [h, hcp]
    | some cs =>
      by_cases hc : c ∈ cs
      · left; simp [h, hcp, hc]
      · right; exact ⟨h, by simp [h, hcp, hc, childList]⟩
  · left; simp [h]

theorem pushOne_of_ne (pp c : JSString) (n : PreNode) (h : n.path ≠ pp) :
    pushOne pp c n = n := by
  unfold pushOne
  simp [h]

theorem pushChild_map_path (m : List PreNode) (pp c : JSString) :
    (pushChild m pp c).map PreNode.path = m.map PreNode.path := by
  unfold pushChild
  rw [List.map_map]
  exact List.map_congr_left fun n _ => pushOne_path pp c n

theorem pushChild_id (m : List PreNode) (pp c : JSString) (h : ∀ n ∈ m, n.path ≠ pp) :
    pushChild m pp c = m := by
  unfold pushChild
  rw [List.map_congr_left fun n hn => pushOne_of_ne pp c n (h n hn)]
  exact List.map_id m

theorem pushChild_flatMap_subset (m : List PreNode) (pp c : JSString) (x : JSString)
    (hx : x ∈ (pushChild m pp c).flatMap childList) :
    x ∈ m.flatMap childList ∨ x = c := by
  rcases List.mem_flatMap.mp hx with ⟨y', hy', hxy⟩
  unfold pushChild at hy'
  rcases List.mem_map.mp hy' with ⟨y, hy, rfl⟩
  rcases pushOne_childList pp c y with h | ⟨_, h⟩
  · exact Or.inl (List.mem_flatMap.mpr ⟨y, hy, h ▸ hxy⟩)
  · rw [h] at hxy
    rcases List.mem_append.mp hxy with h2 | h2
    · exact Or.inl (List.mem_flatMap.mpr ⟨y, hy, h2⟩)
    · right; simpa using h2

theorem pushChild_childNodup : ∀ (m : List PreNode) (pp c : JSString),
    (m.map PreNode.path).Nodup → (m.flatMap childList).Nodup →
    c ∉ m.flatMap childList → ((pushChild m pp c).flatMap childList).Nodup := by
  intro m pp c
  induction m with
  | nil => intro _ _ _; simp [pushChild]
  | cons n t ih =>
    intro hnd h1 h2
    rw [List.map_cons, List.nodup_cons] at hnd
    rw [List.flatMap_cons, List.nodup_append] at h1
    rw [List.flatMap_cons, List.mem_append] at h2
    push_neg at h2
    unfold pushChild
    rw [List.map_cons, List.flatMap_cons, List.nodup_append]
    rcases pushOne_childList pp c n with hcl | ⟨hpp, hcl⟩
    · refine ⟨hcl ▸ h1.1, ?_, ?_⟩
      · exact ih hnd.2 h1.2.1 h2.2
      · intro x hx hx2
        rw [hcl] at hx
        rcases pushChild_flatMap_subset t pp c x hx2 with h | rfl
        · exact h1.2.2 hx h
        · exact h2.1 hx
    · have ht : pushChild t pp c = t := by
        apply pushChild_id
        intro y hy hyp
        have hmem : y.path ∈ List.map PreNode.path t := List.mem_map_of_mem PreNode.path hy
        rw [hyp, ← hpp] at hmem
        exact hnd.1 hmem
      unfold pushChild at ht
      rw [ht, hcl, List.nodup_append]
      refine ⟨⟨h1.1, by simp, ?_⟩, h1.2.1, ?_⟩
      · intro x hx hx2
        rcases List.mem_singleton.mp hx2 with rfl
        exact h2.1 hx
      · intro x hx hx2
        rcases List.mem_append.mp hx with h | h
        · exact h1.2.2 h hx2
        · rcases List.mem_singleton.mp h with rfl
          exact h2.2 hx2

/-- One new-node insertion of the first pass (creation of the record,
`fileTree.set`, and the conditional `push` into the parent's children)
preserves the map invariant. -/
theorem step_inv (m : List PreNode) (inv : MapInv m) (part cur newPath : JSString)
    (node : PreNode) (m2 : List PreNode)
    (hpne : part ≠ []) (hps : '/' ∉ part)
    (hnp : newPath = if cur = [] then part else cur ++ '/' :: part)
    (hname : node.name = part) (hpath : node.path = newPath)
    (hdir : node.childPaths?.isSome = node.isDirectory)
    (hcl : childList node = [])
    (hm2 : m2 = if cur ≠ [] ∧ hasPath (m ++ [node]) cur then
        pushChild (m ++ [node]) cur newPath else m ++ [node])
    (hnew : hasPath m newPath = false) :
    MapInv m2 := by
  have hold : ∀ n ∈ m, n.path ≠ newPath := hasPath_false m newPath hnew
  have hnpne : newPath ≠ [] := by
    rw [hnp]
    by_cases hc : cur = []
    · simpa [hc] using hpne
    · simp [hc]
  have inv1 : MapInv (m ++ [node]) := by
    constructor
    · rw [List.map_append, List.nodup_append]
      refine ⟨inv.nodup, by simp, ?_⟩
      intro x hx hx2
      simp only [List.map_cons, List.map_nil, List.mem_singleton] at hx2
      rcases List.mem_map.mp hx with ⟨y, hy, rfl⟩
      exact hold y hy (by rw [hx2, hpath])
    · intro n hn
      rcases List.mem_append.mp hn with h | h
      · exact inv.nonempty n h
      · rcases List.mem_singleton.mp h with rfl
        rw [hpath]; exact hnpne
    · intro n hn
      rcases List.mem_append.mp hn with h | h
      · exact inv.childDir n h
      · rcases List.mem_singleton.mp h with rfl
        exact hdir
    · intro n hn
      rcases List.mem_append.mp hn with h | h
      · exact inv.names n h
      · rcases List.mem_singleton.mp h with rfl
        rw [hname]; exact hps
    · intro n hn c hc
      rcases List.mem_append.mp hn with h | h
      · obtain ⟨ch, hchm, hchp, hceq⟩ := inv.link n h c hc
        exact ⟨ch, List.mem_append_left _ hchm, hchp, hceq⟩
      · rcases List.mem_singleton.mp h with rfl
        rw [hcl] at hc
        cases hc
    · rw [List.flatMap_append]
      simp only [List.flatMap_cons, List.flatMap_nil, hcl, List.append_nil]
      exact inv.childNodup
  have hB : newPath ∉ (m ++ [node]).flatMap childList := by
    intro h
    rw [List.flatMap_append] at h
    simp only [List.flatMap_cons, List.flatMap_nil, hcl, List.append_nil] at h
    rcases List.mem_flatMap.mp h with ⟨y, hy, hc⟩
    obtain ⟨ch, hchm, hchp, _⟩ := inv.link y hy newPath hc
    exact hold ch hchm hchp
  by_cases hcond : cur ≠ [] ∧ hasPath (m ++ [node]) cur = true
  case neg =>
    rw [hm2, if_neg (by simpa using hcond)]
    exact inv1
  case pos =>
    rw [hm2, if_pos (by simpa using hcond)]
    obtain ⟨hcur, _⟩ := hcond
    have hnp' : newPath = cur ++ '/' :: part := by rw [hnp, if_neg hcur]
    constructor
    · rw [pushChild_map_path]; exact inv1.nodup
    · intro x hx
      rcases List.mem_map.mp hx with ⟨y, hy, rfl⟩
      rw [pushOne_path]
      exact inv1.nonempty y hy
    · intro x hx
      rcases List.mem_map.mp hx with ⟨y, hy, rfl⟩
      rw [pushOne_isSome, pushOne_isDirectory]
      exact inv1.childDir y hy
    · intro x hx
      rcases List.mem_map.mp hx with ⟨y, hy, rfl⟩
      rw [pushOne_name]
      exact inv1.names y hy
    · intro x hx c hc
      rcases List.mem_map.mp hx with ⟨y, hy, rfl⟩
      rcases pushOne_childList cur newPath y with hcly | ⟨hyp, hcly⟩
      · rw [hcly] at hc
        obtain ⟨ch, hchm, hchp, hceq⟩ := inv1.link y hy c hc
        refine ⟨pushOne cur newPath ch, List.mem_map_of_mem _ hchm, ?_, ?_⟩
        · rw [pushOne_path]; exact hchp
        · rw [pushOne_path, pushOne_name]; exact hceq
      · rw [hcly] at hc
        rcases List.mem_append.mp hc with hc2 | hc2
        · obtain ⟨ch, hchm, hchp, hceq⟩ := inv1.link y hy c hc2
          refine ⟨pushOne cur newPath ch, List.mem_map_of_mem _ hchm, ?_, ?_⟩
          · rw [pushOne_path]; exact hchp
          · rw [pushOne_path, pushOne_name]; exact hceq
        · have hceq : c = newPath := List.mem_singleton.mp hc2
          have hnodem : node ∈ m ++ [node] :=
            List.mem_append_right _ (List.mem_singleton.mpr rfl)
          refine ⟨pushOne cur newPath node, List.mem_map_of_mem _ hnodem, ?_, ?_⟩
          · rw [pushOne_path, hpath, hceq]
          · rw [pushOne_path, pushOne_name, hyp, hname, hceq]
            exact hnp'
    · exact pushChild_childNodup (m ++ [node]) cur newPath inv1.nodup inv1.childNodup hB

theorem insertLoop_inv (dir : Bool) (sz total : Nat) :
    ∀ (parts : List JSString), (∀ p ∈ parts, '/' ∉ p) →
    ∀ (i : Nat) (cur : JSString) (m : List PreNode), MapInv m →
      MapInv (insertLoop dir sz total parts i cur m) := by
  intro parts
  induction parts with
  | nil =>
    intro _ i cur m hm
    rw [insertLoop]
    exact hm
  | cons part rest ih =>
    intro hp i cur m hm
    have hrest : ∀ p ∈ rest, '/' ∉ p := fun p h => hp p (List.mem_cons_of_mem _ h)
    simp only [insertLoop]
    by_cases hp0 : part = []
    · rw [if_pos hp0]
      exact ih hrest _ _ _ hm
    · rw [if_neg hp0]
      by_cases hh : hasPath m (if cur = [] then part else cur ++ '/' :: part) = true
      · rw [if_pos hh]
        exact ih hrest _ _ _ hm
      · have hh' : hasPath m (if cur = [] then part else cur ++ '/' :: part) = false := by
          simpa using hh
        rw [if_neg hh]
        apply ih hrest
        exact step_inv m hm part cur _ _ _ hp0 (hp part (List.mem_cons_self _ _)) rfl rfl rfl
          (by cases h : (decide (i < total - 1) || dir) <;> simp [h])
          (by cases h : (decide (i < total - 1) || dir) <;> simp [childList, h])
          rfl hh'

theorem processEntry_inv (e : Entry) (m : List PreNode) (hm : MapInv m) :
    MapInv (processEntry e m) := by
  unfold processEntry
  exact insertLoop_inv e.dir e.uncompressedSize _ _ (jsSplit_no_sep '/' e.path) 0 [] m hm

theorem firstPass_inv (entries : List Entry) : MapInv (firstPass entries) := by
  unfold firstPass
  have key : ∀ m, MapInv m → MapInv (entries.foldl (fun m e => processEntry e m) m) := by
    induction entries with
    | nil => intro m hm; exact hm
    | cons e t ih => intro m hm; exact ih _ (processEntry_inv e m hm)
  exact key [] mapInv_nil

theorem buildNode_path (m : List PreNode) (fuel : Nat) (n : PreNode) :
    (buildNode m fuel n).path = n.path := by cases fuel <;> rfl

theorem buildNode_name (m : List PreNode) (fuel : Nat) (n : PreNode) :
    (buildNode m fuel n).name = n.name := by cases fuel <;> rfl

theorem childrenWF_iff : ∀ (p : JSString) (l : List FileNode),
    childrenWF p l ↔ ∀ x ∈ l, x.path = p ++ '/' :: x.name ∧ nodeWF x := by
  intro p l
  induction l with
  | nil => simp [childrenWF]
  | cons n t ih => rw [childrenWF, ih]; simp

theorem forestWF_iff : ∀ l : List FileNode, forestWF l ↔ ∀ x ∈ l, nodeWF x := by
  intro l
  induction l with
  | nil => simp [forestWF]
  | cons n t ih => rw [forestWF, ih]; simp

theorem childList_eq (n : PreNode) (cs : List JSString) (h : n.childPaths? = some cs) :
    childList n = cs := by rw [childList, h]; rfl

theorem buildNode_wf (m : List PreNode) (inv : MapInv m) :
    ∀ (fuel : Nat) (n : PreNode), n ∈ m → nodeWF (buildNode m fuel n) := by
  intro fuel
  induction fuel with
  | zero =>
    intro n hn
    rw [buildNode]
    have hd := inv.childDir n hn
    cases hcp : n.childPaths? with
    | none =>
      rw [hcp] at hd
      simp only [Option.map_none', Option.isSome_none] at hd ⊢
      show n.isDirectory = false
      exact hd.symm
    | some cs =>
      rw [hcp] at hd
      simp only [Option.map_some', Option.isSome_some] at hd ⊢
      refine ⟨hd.symm, ?_⟩
      rw [childrenWF_iff]
      intro x hx
      cases hx
  | succ fuel ih =>
    intro n hn
    rw [buildNode]
    have hd := inv.childDir n hn
    cases hcp : n.childPaths? with
    | none =>
      rw [hcp] at hd
      simp only [Option.map_none', Option.isSome_none] at hd ⊢
      show n.isDirectory = false
      exact hd.symm
    | some cs =>
      rw [hcp] at hd
      simp only [Option.map_some', Option.isSome_some] at hd ⊢
      refine ⟨hd.symm, ?_⟩
      rw [childrenWF_iff]
      intro x hx
      rcases List.mem_map.mp hx with ⟨ch, hch, rfl⟩
      rcases List.mem_filterMap.mp hch with ⟨c, hcs, hfind⟩
      obtain ⟨hchm, hchp⟩ := findNode_mem m c ch hfind
      have hcl : c ∈ childList n := by rw [childList_eq n cs hcp]; exact hcs
      obtain ⟨ch₀, hch₀m, hch₀p, hceq⟩ := inv.link n hn c hcl
      have hch₀ : findNode m c = some ch₀ := by
        rw [← hch₀p]; exact findNode_of_mem m inv.nodup ch₀ hch₀m
      rw [hfind] at hch₀
      injection hch₀ with hcheq
      constructor
      · rw [buildNode_path, buildNode_name, hchp, hceq, hcheq]
      · exact ih ch hchm

theorem nodePaths_mk_none (nm p : JSString) (d : Bool) (sz : Option Nat) :
    nodePaths (.mk nm p d sz none) = [p] := rfl

theorem nodePaths_mk_some (nm p : JSString) (d : Bool) (sz : Option Nat) (cs : List FileNode) :
    nodePaths (.mk nm p d sz (some cs)) = p :: forestPaths cs := rfl

theorem forestPaths_cons (n : FileNode) (t : List FileNode) :
    forestPaths (n :: t) = nodePaths n ++ forestPaths t := rfl

theorem mem_forestPaths : ∀ (l : List FileNode) (q : JSString),
    q ∈ forestPaths l ↔ ∃ x ∈ l, q ∈ nodePaths x := by
  intro l q
  induction l with
  | nil => rw [forestPaths]; simp
  | cons n t ih => rw [forestPaths_cons, List.mem_append, ih]; simp

theorem flatMap_nodup_parts : ∀ (m : List PreNode),
    (m.flatMap childList).Nodup → ∀ n ∈ m, (childList n).Nodup := by
  intro m
  induction m with
  | nil => intro _ n hn; cases hn
  | cons x t ih =>
    intro h n hn
    rw [List.flatMap_cons, List.nodup_append] at h
    rcases List.mem_cons.mp hn with rfl | hn2
    · exact h.1
    · exact ih h.2.1 n hn2

theorem nodePaths_shape (m : List PreNode) (inv : MapInv m) :
    ∀ (fuel : Nat) (n : PreNode), n ∈ m → ∀ q ∈ nodePaths (buildNode m fuel n),
      q = n.path ∨ ∃ t, q = n.path ++ '/' :: t := by
  intro fuel
  induction fuel with
  | zero =>
    intro n hn q hq
    rw [buildNode] at hq
    cases hcp : n.childPaths? with
    | none =>
      rw [hcp] at hq
      simp only [Option.map_none', nodePaths_mk_none, List.mem_singleton] at hq
      exact Or.inl hq
    | some cs =>
      rw [hcp] at hq
      simp only [Option.map_some', nodePaths_mk_some] at hq
      rcases List.mem_cons.mp hq with rfl | hq2
      · exact Or.inl rfl
      · rw [forestPaths] at hq2; cases hq2
  | succ fuel ih =>
    intro n hn q hq
    rw [buildNode] at hq
    cases hcp : n.childPaths? with
    | none =>
      rw [hcp] at hq
      simp only [Option.map_none', nodePaths_mk_none, List.mem_singleton] at hq
      exact Or.inl hq
    | some cs =>
      rw [hcp] at hq
      simp only [Option.map_some', nodePaths_mk_some] at hq
      rcases List.mem_cons.mp hq with rfl | hq2
      · exact Or.inl rfl
      · rcases (mem_forestPaths _ q).mp hq2 with ⟨x, hx, hqx⟩
        rcases List.mem_map.mp hx with ⟨ch, hch, rfl⟩
        rcases List.mem_filterMap.mp hch with ⟨c, hcs, hfind⟩
        obtain ⟨hchm, hchp⟩ := findNode_mem m c ch hfind
        have hcl : c ∈ childList n := by rw [childList_eq n cs hcp]; exact hcs
        obtain ⟨ch₀, hch₀m, hch₀p, hceq⟩ := inv.link n hn c hcl
        have hfind₀ : findNode m c = some ch₀ := by
          rw [← hch₀p]; exact findNode_of_mem m inv.nodup ch₀ hch₀m
        rw [hfind] at hfind₀
        injection hfind₀ with hcheq
        have hchpath : ch.path = n.path ++ '/' :: ch.name := by
          rw [hchp, hceq, hcheq]
        rcases ih ch hchm q hqx with h | ⟨t, h⟩
        · right
          exact ⟨ch.name, by rw [h, hchpath]⟩
        · right
          refine ⟨ch.name ++ '/' :: t, ?_⟩
          rw [h, hchpath, List.append_assoc, List.cons_append]

/-- Two distinct children of the same parent have disjoint subtree path
sets: a path cannot extend both `np ++ "/" ++ a` and `np ++ "/" ++ b`
for distinct slash-free segments `a`, `b`. -/
theorem seed_disjoint (np a b : JSString) (ha : '/' ∉ a) (hb : '/' ∉ b)
    (hne : np ++ '/' :: a ≠ np ++ '/' :: b) (q : JSString)
    (h1 : q = np ++ '/' :: a ∨ ∃ t, q = (np ++ '/' :: a) ++ '/' :: t)
    (h2 : q = np ++ '/' :: b ∨ ∃ t, q = (np ++ '/' :: b) ++ '/' :: t) : False := by
  have hab : a ≠ b := fun h => hne (by rw [h])
  rcases h1 with rfl | ⟨t₁, rfl⟩ <;> rcases h2 with h2 | ⟨t₂, h2⟩
  · have h3 := List.append_cancel_left h2
    injection h3 with _ h4
    exact hab h4
  · rw [List.append_assoc, List.cons_append] at h2
    have h3 := List.append_cancel_left h2
    injection h3 with _ h4
    exact ha (by rw [h4]; exact List.mem_append_right _ (List.mem_cons_self _ _))
  · rw [List.append_assoc, List.cons_append] at h2
    have h3 := List.append_cancel_left h2.symm
    injection h3 with _ h4
    exact hb (by rw [h4]; exact List.mem_append_right _ (List.mem_cons_self _ _))
  · rw [List.append_assoc, List.cons_append, List.append_assoc, List.cons_append] at h2
    have h3 := List.append_cancel_left h2
    injection h3 with _ h4
    exact hab (slash_split_inj a b t₁ t₂ ha hb h4).1

/-- Subtrees of distinct slash-free root paths are disjoint. -/
theorem root_seed_disjoint (r₁ r₂ : JSString) (h1s : '/' ∉ r₁) (h2s : '/' ∉ r₂)
    (hne : r₁ ≠ r₂) (q : JSString)
    (h1 : q = r₁ ∨ ∃ t, q = r₁ ++ '/' :: t)
    (h2 : q = r₂ ∨ ∃ t, q = r₂ ++ '/' :: t) : False := by
  rcases h1 with rfl | ⟨t₁, rfl⟩ <;> rcases h2 with h2 | ⟨t₂, h2⟩
  · exact hne h2
  · exact h1s (by rw [h2]; exact List.mem_append_right _ (List.mem_cons_self _ _))
  · exact h2s (by rw [← h2]; exact List.mem_append_right _ (List.mem_cons_self _ _))
  · exact hne (slash_split_inj r₁ r₂ t₁ t₂ h1s h2s h2).1

theorem children_paths_nodup (m : List PreNode) (inv : MapInv m) (fuel : Nat)
    (IH : ∀ ch ∈ m, (nodePaths (buildNode m fuel ch)).Nodup)
    (n : PreNode) (hn : n ∈ m) :
    ∀ cs : List JSString, cs.Nodup → (∀ c ∈ cs, c ∈ childList n) →
      (forestPaths ((cs.filterMap (findNode m)).map fun ch => buildNode m fuel ch)).Nodup
      ∧ ∀ q ∈ forestPaths ((cs.filterMap (findNode m)).map fun ch => buildNode m fuel ch),
          ∃ c ∈ cs, q = c ∨ ∃ t, q = c ++ '/' :: t := by
  intro cs
  induction cs with
  | nil =>
    intro _ _
    constructor
    · rw [List.filterMap_nil, List.map_nil, forestPaths]; exact List.nodup_nil
    · intro q hq; rw [List.filterMap_nil, List.map_nil, forestPaths] at hq; cases hq
  | cons c cs' ihcs =>
    intro hnd hsub
    have hc0 : c ∈ childList n := hsub c (List.mem_cons_self _ _)
    obtain ⟨ch₀, hch₀m, hch₀p, hceq⟩ := inv.link n hn c hc0
    have hfind : findNode m c = some ch₀ := by
      rw [← hch₀p]; exact findNode_of_mem m inv.nodup ch₀ hch₀m
    rw [List.nodup_cons] at hnd
    obtain ⟨ih1, ih2⟩ := ihcs hnd.2 (fun x hx => hsub x (List.mem_cons_of_mem _ hx))
    have hshape : ∀ q ∈ nodePaths (buildNode m fuel ch₀),
        q = c ∨ ∃ t, q = c ++ '/' :: t := by
      intro q hq
      rcases nodePaths_shape m inv fuel ch₀ hch₀m q hq with h | ⟨t, h⟩
      · exact Or.inl (by rw [h, hch₀p])
      · exact Or.inr ⟨t, by rw [h, hch₀p]⟩
    have hfmc : (c :: cs').filterMap (findNode m) = ch₀ :: cs'.filterMap (findNode m) := by
      rw [List.filterMap_cons, hfind]
    constructor
    · rw [hfmc, List.map_cons, forestPaths_cons, List.nodup_append]
      refine ⟨IH ch₀ hch₀m, ih1, ?_⟩
      intro q hq hq2
      obtain ⟨c', hc', hq'⟩ := ih2 q hq2
      obtain ⟨ch', hch'm, hch'p, hceq'⟩ :=
        inv.link n hn c' (hsub c' (List.mem_cons_of_mem _ hc'))
      have hcne : c ≠ c' := fun h => hnd.1 (h ▸ hc')
      apply seed_disjoint n.path ch₀.name ch'.name (inv.names ch₀ hch₀m) (inv.names ch' hch'm)
        (by rw [← hceq, ← hceq']; exact hcne) q
      · rw [← hceq]; exact hshape q hq
      · rw [← hceq']; exact hq'
    · intro q hq
      rw [hfmc, List.map_cons, forestPaths_cons, List.mem_append] at hq
      rcases hq with hq | hq
      · exact ⟨c, List.mem_cons_self _ _, hshape q hq⟩
      · obtain ⟨c', hc', h⟩ := ih2 q hq
        exact ⟨c', List.mem_cons_of_mem _ hc', h⟩

theorem buildNode_nodup (m : List PreNode) (inv : MapInv m) :
    ∀ (fuel : Nat) (n : PreNode), n ∈ m → (nodePaths (buildNode m fuel n)).Nodup := by
  intro fuel
  induction fuel with
  | zero =>
    intro n hn
    rw [buildNode]
    cases hcp : n.childPaths? with
    | none => simp [nodePaths_mk_none]
    | some cs => simp [nodePaths_mk_some, forestPaths]
  | succ fuel ih =>
    intro n hn
    rw [buildNode]
    cases hcp : n.childPaths? with
    | none => simp [nodePaths_mk_none]
    | some cs =>
      simp only [Option.map_some', nodePaths_mk_some]
      rw [List.nodup_cons]
      have hcsnd : cs.Nodup := by
        have h := flatMap_nodup_parts m inv.childNodup n hn
        rwa [childList_eq n cs hcp] at h
      have hsub : ∀ c ∈ cs, c ∈ childList n := fun c hc => by
        rw [childList_eq n cs hcp]; exact hc
      obtain ⟨hnodup, hshape⟩ := children_paths_nodup m inv fuel ih n hn cs hcsnd hsub
      refine ⟨?_, hnodup⟩
      intro hmem
      obtain ⟨c, hc, hq⟩ := hshape n.path hmem
      obtain ⟨ch₀, hch₀m, hch₀p, hceq⟩ := inv.link n hn c (hsub c hc)
      rcases hq with h | ⟨t, h⟩
      · rw [hceq] at h
        have hlen := congrArg List.length h
        simp [List.length_append] at hlen
      · rw [hceq] at h
        have hlen := congrArg List.length h
        simp [List.length_append] at hlen

theorem rootPre_mem (m : List PreNode) (r : PreNode) (hr : r ∈ rootPre m) :
    r ∈ m ∧ '/' ∉ r.path := by
  unfold rootPre at hr
  have h := List.mem_filter.mp hr
  exact ⟨h.1, of_decide_eq_true h.2⟩

theorem roots_paths_nodup (m : List PreNode) (inv : MapInv m) (fuel : Nat) :
    ∀ rs : List PreNode, (rs.map PreNode.path).Nodup → (∀ r ∈ rs, r ∈ m ∧ '/' ∉ r.path) →
      (forestPaths (rs.map fun r => buildNode m fuel r)).Nodup
      ∧ ∀ q ∈ forestPaths (rs.map fun r => buildNode m fuel r),
          ∃ r ∈ rs, q = r.path ∨ ∃ t, q = r.path ++ '/' :: t := by
  intro rs
  induction rs with
  | nil =>
    intro _ _
    constructor
    · rw [List.map_nil, forestPaths]; exact List.nodup_nil
    · intro q hq; rw [List.map_nil, forestPaths] at hq; cases hq
  | cons r rs' ih =>
    intro hnd hsub
    obtain ⟨hm, hs⟩ := hsub r (List.mem_cons_self _ _)
    rw [List.map_cons, List.nodup_cons] at hnd
    obtain ⟨ih1, ih2⟩ := ih hnd.2 (fun x hx => hsub x (List.mem_cons_of_mem _ hx))
    have hshape := fun q hq => nodePaths_shape m inv fuel r hm q hq
    constructor
    · rw [List.map_cons, forestPaths_cons, List.nodup_append]
      refine ⟨buildNode_nodup m inv fuel r hm, ih1, ?_⟩
      intro q hq hq2
      obtain ⟨r', hr', hq'⟩ := ih2 q hq2
      obtain ⟨hm', hs'⟩ := hsub r' (List.mem_cons_of_mem _ hr')
      have hne : r.path ≠ r'.path :=
        fun h => hnd.1 (h ▸ List.mem_map_of_mem PreNode.path hr')
      exact root_seed_disjoint r.path r'.path hs hs' hne q (hshape q hq) hq'
    · intro q hq
      rw [List.map_cons, forestPaths_cons, List.mem_append] at hq
      rcases hq with hq | hq
      · exact ⟨r, List.mem_cons_self _ _, hshape q hq⟩
      · obtain ⟨r', h1, h2⟩ := ih2 q hq
        exact ⟨r', List.mem_cons_of_mem _ h1, h2⟩

theorem sortNode_path (n : FileNode) : (sortNode n).path = n.path := by
  cases n with
  | mk nm p d sz c => cases c <;> rfl

theorem sortNode_name (n : FileNode) : (sortNode n).name = n.name := by
  cases n with
  | mk nm p d sz c => cases c <;> rfl

theorem forestPaths_eq_flatMap : ∀ l : List FileNode, forestPaths l = l.flatMap nodePaths := by
  intro l
  induction l with
  | nil => rfl
  | cons n t ih => rw [forestPaths_cons, List.flatMap_cons, ih]

theorem flatMap_perm_congr {α β : Type} : ∀ (l : List α) (f g : α → List β),
    (∀ x ∈ l, (f x).Perm (g x)) → (l.flatMap f).Perm (l.flatMap g) := by
  intro l f g h
  induction l with
  | nil => simp
  | cons x t ih =>
    rw [List.flatMap_cons, List.flatMap_cons]
    exact (h x (List.mem_cons_self _ _)).append (ih fun y hy => h y (List.mem_cons_of_mem _ hy))

theorem flatMap_map_comp {α β : Type} : ∀ (l : List α) (g : α → α) (f : α → List β),
    (l.map g).flatMap f = l.flatMap fun x => f (g x) := by
  intro l g f
  induction l with
  | nil => rfl
  | cons x t ih => rw [List.map_cons, List.flatMap_cons, List.flatMap_cons, ih]

theorem nodePaths_sortNode_perm : ∀ n : FileNode, (nodePaths (sortNode n)).Perm (nodePaths n) := by
  have key : ∀ (k : Nat) (n : FileNode), sizeOf n ≤ k →
      (nodePaths (sortNode n)).Perm (nodePaths n) := by
    intro k
    induction k with
    | zero =>
      intro n h
      cases n with
      | mk nm p d sz c => simp [FileNode.mk.sizeOf_spec] at h
    | succ k ih =>
      intro n hn
      cases n with
      | mk nm p d sz c =>
        cases c with
        | none => exact List.Perm.refl _
        | some cs =>
          rw [sortNode, nodePaths_mk_some, nodePaths_mk_some]
          apply List.Perm.cons
          rw [forestPaths_eq_flatMap, forestPaths_eq_flatMap]
          refine List.Perm.trans (List.Perm.flatMap_right _ (List.perm_insertionSort _ _)) ?_
          rw [sortEach_eq_map, flatMap_map_comp]
          apply flatMap_perm_congr
          intro x hx
          apply ih
          have h1 : sizeOf x < sizeOf cs := List.sizeOf_lt_of_mem hx
          have h2 : sizeOf (FileNode.mk nm p d sz (some cs)) ≤ k + 1 := hn
          simp [FileNode.mk.sizeOf_spec] at h2
          omega
  intro n
  exact key (sizeOf n) n (Nat.le_refl _)

theorem forestPaths_sortNodes_perm (l : List FileNode) :
    (forestPaths (sortNodes l)).Perm (forestPaths l) := by
  rw [sortNodes, forestPaths_eq_flatMap, forestPaths_eq_flatMap]
  refine List.Perm.trans (List.Perm.flatMap_right _ (List.perm_insertionSort _ _)) ?_
  rw [sortEach_eq_map, flatMap_map_comp]
  exact flatMap_perm_congr l _ _ fun x _ => nodePaths_sortNode_perm x

theorem nodeWF_mk_none (nm p : JSString) (d : Bool) (sz : Option Nat) :
    nodeWF (.mk nm p d sz none) = (d = false) := rfl

theorem nodeWF_mk_some (nm p : JSString) (d : Bool) (sz : Option Nat) (cs : List FileNode) :
    nodeWF (.mk nm p d sz (some cs)) = (d = true ∧ childrenWF p cs) := rfl

theorem nodeWF_sortNode : ∀ n : FileNode, nodeWF n → nodeWF (sortNode n) := by
  have key : ∀ (k : Nat) (n : FileNode), sizeOf n ≤ k → nodeWF n → nodeWF (sortNode n) := by
    intro k
    induction k with
    | zero =>
      intro n h
      cases n with
      | mk nm p d sz c => simp [FileNode.mk.sizeOf_spec] at h
    | succ k ih =>
      intro n hn hwf
      cases n with
      | mk nm p d sz c =>
        cases c with
        | none => exact hwf
        | some cs =>
          rw [sortNode, nodeWF_mk_some]
          rw [nodeWF_mk_some] at hwf
          refine ⟨hwf.1, ?_⟩
          rw [childrenWF_iff]
          intro x hx
          have hx' : x ∈ sortEach cs := ((List.perm_insertionSort nodeR _).mem_iff).mp hx
          rw [sortEach_eq_map] at hx'
          rcases List.mem_map.mp hx' with ⟨y, hy, rfl⟩
          obtain ⟨hyp, hywf⟩ := (childrenWF_iff p cs).mp hwf.2 y hy
          constructor
          · rw [sortNode_path, sortNode_name, hyp]
          · apply ih y ?_ hywf
            have h1 : sizeOf y < sizeOf cs := List.sizeOf_lt_of_mem hy
            have h2 : sizeOf (FileNode.mk nm p d sz (some cs)) ≤ k + 1 := hn
            simp [FileNode.mk.sizeOf_spec] at h2
            omega
  intro n
  exact key (sizeOf n) n (Nat.le_refl _)

theorem forestWF_sortNodes (l : List FileNode) (h : forestWF l) : forestWF (sortNodes l) := by
  rw [forestWF_iff]
  intro x hx
  have hx' : x ∈ sortEach l := ((List.perm_insertionSort nodeR _).mem_iff).mp hx
  rw [sortEach_eq_map] at hx'
  rcases List.mem_map.mp hx' with ⟨y, hy, rfl⟩
  exact nodeWF_sortNode y ((forestWF_iff l).mp h y hy)

/-- C1: in the tree returned by the materializer every node's path is
unique across the whole tree, every non-root node's path is its parent's
path followed by `/` followed by its name, every directory node carries
a (possibly empty) children list, and no file node carries one. -/
theorem parseArchive_tree_invariants (entries : List Entry) :
    (forestPaths (parseArchive entries)).Nodup ∧ forestWF (parseArchive entries) := by
  have inv := firstPass_inv entries
  have hpa : parseArchive entries =
      sortNodes ((rootPre (firstPass entries)).map
        fun r => buildNode (firstPass entries) ((firstPass entries).length + 1) r) := rfl
  rw [hpa]
  have hrnd : ((rootPre (firstPass entries)).map PreNode.path).Nodup :=
    ((List.filter_sublist (firstPass entries)).map PreNode.path).nodup inv.nodup
  have hroots := roots_paths_nodup (firstPass entries) inv ((firstPass entries).length + 1)
    (rootPre (firstPass entries)) hrnd (fun r hr => rootPre_mem _ r hr)
  constructor
  · exact ((forestPaths_sortNodes_perm _).symm).nodup hroots.1
  · apply forestWF_sortNodes
    rw [forestWF_iff]
    intro x hx
    rcases List.mem_map.mp hx with ⟨r, hr, rfl⟩
    exact buildNode_wf (firstPass entries) inv _ r (rootPre_mem _ r hr).1
